import Mathlib

/-!
Verification of the meeting-scheduling core of the repository
(`src/meetings/utils.py`, `src/meetings/models.py`, `src/meetings/views.py`).

Modelling conventions:
* Instants (Django `DateTimeField` values, stored in UTC) are minutes on a
  single absolute axis, `Nat`.  A calendar date is a day ordinal `d : Nat`
  (day 0 is a Monday, so `d % 7` coincides with Python's
  `date.weekday()`), and the local date-time for day `d` at minute-of-day
  `m` is the instant `d * 1440 + m`.  The configuration timezone is
  modelled as a fixed-offset zone: `tz.localize` followed by
  `astimezone(UTC)` is an order- and difference-preserving map, so it is
  taken as the identity on the minute axis.
* Python `round(x, 1)` (banker's rounding to one decimal) is modelled with
  exact integer arithmetic: the percentage is computed as an integer
  number of tenths of a percent, rounding ties to even, and is cast to
  `ℚ` only where the code compares it against a (possibly fractional)
  threshold.
* Django querysets over a single meeting's rows are modelled as Lean
  lists; `update_or_create` is an explicit upsert on such a list, and
  `.delete()` drops elements.  A meeting's persisted `SuggestedSlot`
  rows are the `db : List SuggestedSlot` argument threaded through the
  aggregation functions.
-/

namespace Meetings

/-- `BusySlot` (models.py): a participant's busy interval, `[start, end)`
in UTC minutes. -/
structure BusySlot where
  start_time : Nat
  end_time : Nat
deriving DecidableEq, Repr

/-- `Participant` (models.py): only the fields the availability engine
reads — the `has_responded` flag and the participant's busy slots
(`busy_slots` related set). -/
structure Participant where
  has_responded : Bool
  busy_slots : List BusySlot
deriving DecidableEq, Repr

/-- The slice of `MeetingRequest` (models.py) that `generate_time_slots`
reads: duration, step, date range (day ordinals, inclusive), work-hour
window (minutes of day) and the work-days-only flag. -/
structure MeetingConfig where
  duration_minutes : Nat
  step_size_minutes : Nat
  date_range_start : Nat
  date_range_end : Nat
  work_hours_start : Nat
  work_hours_end : Nat
  work_days_only : Bool
deriving DecidableEq, Repr

/-- The instant of day `d` at minute-of-day `m` (datetime.combine plus
fixed-offset localization). -/
def instant (d m : Nat) : Nat := d * 1440 + m

/-- The inner `while current_slot_start + duration <= work_end` loop of
`generate_time_slots` (utils.py lines 45-54), with explicit fuel: each
iteration emits `(t, t + duration)` and advances `t` by `step`. -/
def slotLoop (step dur work_end : Nat) : Nat → Nat → List (Nat × Nat)
  | 0, _ => []
  | fuel + 1, t =>
    if t + dur ≤ work_end then (t, t + dur) :: slotLoop step dur work_end fuel (t + step)
    else []

/-- One day's slots in `generate_time_slots`: slide a window of length
`duration_minutes` from `work_hours_start`, advancing by
`step_size_minutes`, while the window end stays within
`work_hours_end`.  The fuel `work_end + 1` dominates the iteration
count whenever the step is positive, which the model's
`STEP_SIZE_CHOICES` (15/30/60) guarantee. -/
def daySlots (c : MeetingConfig) (d : Nat) : List (Nat × Nat) :=
  let work_start := instant d c.work_hours_start
  let work_end := instant d c.work_hours_end
  slotLoop c.step_size_minutes c.duration_minutes work_end (work_end + 1) work_start

/-- The `while current_date <= end_date` iteration of
`generate_time_slots`: the list of day ordinals from `s` to `e`
inclusive, empty when `e < s`. -/
def dayRange (s e : Nat) : List Nat := (List.range (e + 1 - s)).map (s + ·)

/-- Python `date.weekday()` under the day-0-is-Monday convention:
Saturday and Sunday are the days with `weekday ≥ 5`. -/
def weekday (d : Nat) : Nat := d % 7

/-- `generate_time_slots` (utils.py lines 12-58): for every day in the
inclusive date range, skipping Saturday/Sunday when `work_days_only`,
emit that day's slot lattice. -/
def generate_time_slots (c : MeetingConfig) : List (Nat × Nat) :=
  (dayRange c.date_range_start c.date_range_end).flatMap fun d =>
    if c.work_days_only && decide (5 ≤ weekday d) then [] else daySlots c d

/-- The days of the date range that actually contribute slots: the
non-skipped iterations of the outer loop of `generate_time_slots`. -/
def includedDays (c : MeetingConfig) : List Nat :=
  (dayRange c.date_range_start c.date_range_end).filter fun d =>
    !(c.work_days_only && decide (5 ≤ weekday d))

/-- The spec's closed form for the per-day slot count:
`floor((work_minutes - duration)/step) + 1`, and `0` when that quantity
is negative (in `Nat` form: `0` unless the duration fits the window). -/
def perDaySlotCount (c : MeetingConfig) : Nat :=
  if c.work_hours_start + c.duration_minutes ≤ c.work_hours_end then
    (c.work_hours_end - c.work_hours_start - c.duration_minutes) / c.step_size_minutes + 1
  else 0

/-- Scenario A configuration: duration 60, step 30, a single (week)day,
work hours 09:00–17:00 (minutes 540–1020). -/
def scenarioA : MeetingConfig := ⟨60, 30, 0, 0, 540, 1020, false⟩

/-- `is_participant_available` (utils.py lines 61-75): true iff no busy
slot of the participant satisfies
`start_time < end_time ∧ end_time > start_time` against the candidate
interval (the `Q(start_time__lt=end_time) & Q(end_time__gt=start_time)`
filter followed by `not overlapping.exists()`). -/
def is_participant_available (busy : List BusySlot) (start_time end_time : Nat) : Bool :=
  !(busy.any fun b => decide (b.start_time < end_time) && decide (b.end_time > start_time))

/-- `calculate_slot_availability` (utils.py lines 78-97): restrict to
responded participants, return `(available_count, total_count,
available_participants)`, with the early `(0, 0, [])` return when no
one has responded. -/
def calculate_slot_availability (parts : List Participant) (start_time end_time : Nat) :
    Nat × Nat × List Participant :=
  let responded := parts.filter (·.has_responded)
  let total := responded.length
  if total = 0 then (0, 0, [])
  else
    let avail := responded.filter fun p => is_participant_available p.busy_slots start_time end_time
    (avail.length, total, avail)

/-- `SuggestedSlot` (models.py): a persisted aggregated slot with its
availability counts and the `is_locked` flag. -/
structure SuggestedSlot where
  start_time : Nat
  end_time : Nat
  available_count : Nat
  total_participants : Nat
  is_locked : Bool
deriving DecidableEq, Repr

/-- Round-half-even of the exact fraction `n / d` (for `d ≠ 0`),
in integer arithmetic: compare twice the remainder with the divisor,
sending ties to the even quotient.  This is banker's rounding, the
semantics of Python's `round`. -/
def roundHalfEvenTenths (n d : Nat) : Nat :=
  let q := n / d
  let r := n % d
  if 2 * r < d then q
  else if d < 2 * r then q + 1
  else if q % 2 = 0 then q else q + 1

/-- The value of `SuggestedSlot.availability_percentage` (models.py
lines 256-261) in tenths of a percent:
`round(available_count / total_participants * 100, 1)` scaled by ten,
and `0` when `total_participants = 0`. -/
def pctTenths (s : SuggestedSlot) : Nat :=
  if s.total_participants = 0 then 0
  else roundHalfEvenTenths (s.available_count * 1000) s.total_participants

/-- `SuggestedSlot.availability_percentage` (models.py lines 256-261):
the one-decimal rounded percentage, as an exact rational. -/
def availability_percentage (s : SuggestedSlot) : ℚ :=
  (pctTenths s : ℚ) / 10

/-- `SuggestedSlot.heatmap_level` (models.py lines 263-280): the 0–5
intensity level, a cascade of `>=` tests on
`availability_percentage`. -/
def heatmap_level (s : SuggestedSlot) : Nat :=
  if 80 ≤ availability_percentage s then 5
  else if 60 ≤ availability_percentage s then 4
  else if 40 ≤ availability_percentage s then 3
  else if 20 ≤ availability_percentage s then 2
  else if 0 < availability_percentage s then 1
  else 0

/-- The queryset order `order_by('-available_count', 'start_time')`
used by `get_top_suggestions`: available count descending, start time
ascending as tie-break. -/
def slotOrder (a b : SuggestedSlot) : Prop :=
  b.available_count < a.available_count ∨
    (a.available_count = b.available_count ∧ a.start_time ≤ b.start_time)

instance : DecidableRel slotOrder := fun a b => by
  unfold slotOrder
  infer_instance

instance : IsTotal SuggestedSlot slotOrder := by
  constructor
  intro a b
  unfold slotOrder
  omega

instance : IsTrans SuggestedSlot slotOrder := by
  constructor
  intro a b c hab hbc
  unfold slotOrder at *
  omega

/-- `get_top_suggestions` (utils.py lines 141-164): order the meeting's
suggested slots by available count descending / start time ascending,
keep those with `availability_percentage >= min_availability_pct`, and
take the first `limit`. -/
def get_top_suggestions (slots : List SuggestedSlot) (limit : Nat)
    (min_availability_pct : ℚ) : List SuggestedSlot :=
  ((List.insertionSort slotOrder slots).filter fun s =>
    decide (min_availability_pct ≤ availability_percentage s)).take limit

/-- The update half of `update_or_create`: on the row whose key is
`(st, en)`, set the `defaults` fields (`available_count`,
`total_participants`), leaving `is_locked` untouched; other rows are
unchanged. -/
def upsertRow (st en a t : Nat) (s : SuggestedSlot) : SuggestedSlot :=
  if s.start_time = st ∧ s.end_time = en then
    { s with available_count := a, total_participants := t }
  else s

/-- Django's `update_or_create` keyed on `(start_time, end_time)`
(utils.py lines 126-134): when a row with the key exists, update the
`defaults` fields; otherwise insert a fresh row with the model's
`is_locked = False` default. -/
def update_or_create (db : List SuggestedSlot) (st en a t : Nat) : List SuggestedSlot :=
  if db.any fun s => decide (s.start_time = st) && decide (s.end_time = en) then
    db.map (upsertRow st en a t)
  else db ++ [⟨st, en, a, t, false⟩]

/-- The loop body of `generate_suggested_slots` (utils.py lines
118-136): compute the availability of lattice slot `se` and
`update_or_create` its row. -/
def applySlot (parts : List Participant) (d : List SuggestedSlot) (se : Nat × Nat) :
    List SuggestedSlot :=
  update_or_create d se.1 se.2
    (calculate_slot_availability parts se.1 se.2).1
    (calculate_slot_availability parts se.1 se.2).2.1

/-- `generate_suggested_slots` (utils.py lines 100-138): when
`force_recalculate`, delete the meeting's existing `SuggestedSlot` rows;
then for every lattice slot compute its availability and
`update_or_create` the row.  The returned list is the meeting's
persisted `SuggestedSlot` set after the call. -/
def generate_suggested_slots (c : MeetingConfig) (parts : List Participant)
    (db : List SuggestedSlot) (force_recalculate : Bool) : List SuggestedSlot :=
  (generate_time_slots c).foldl (applySlot parts)
    (if force_recalculate then [] else db)

/-- The freshly computed row for lattice slot `se`: the row
`update_or_create` writes on a clean recompute. -/
def freshSlot (parts : List Participant) (se : Nat × Nat) : SuggestedSlot :=
  ⟨se.1, se.2, (calculate_slot_availability parts se.1 se.2).1,
    (calculate_slot_availability parts se.1 se.2).2.1, false⟩

/-- `MeetingRequest.status` (models.py `STATUS_CHOICES`). -/
inductive MeetingStatus
  | draft
  | active
  | locked
  | cancelled
deriving DecidableEq, Repr

/-- The meeting-scoped state the views read and write: the request's
status, its participants, and its persisted `SuggestedSlot` rows. -/
structure MeetingState where
  status : MeetingStatus
  participants : List Participant
  slots : List SuggestedSlot
deriving DecidableEq, Repr

/-- `lock_slot` (views.py lines 364-394): delete every `SuggestedSlot`
of the meeting other than the chosen one, set `is_locked = True` on it,
and set the meeting status to `locked`.  The chosen slot is addressed
by its `(start_time, end_time)` key, the model surrogate for its id. -/
def lock_slot (m : MeetingState) (key : Nat × Nat) : MeetingState :=
  { m with
    slots := (m.slots.filter fun s =>
        decide (s.start_time = key.1) && decide (s.end_time = key.2)).map
      fun s => { s with is_locked := true },
    status := MeetingStatus.locked }

/-- The recompute step of `view_request` (views.py lines 337-339):
regenerate suggestions, but not if the meeting is already locked. -/
def view_request_recompute (c : MeetingConfig) (m : MeetingState) : MeetingState :=
  if m.status ≠ MeetingStatus.locked then
    { m with slots := generate_suggested_slots c m.participants m.slots true }
  else m

/-- `BusySlot.clean` (models.py lines 207-210): the model-level
validator — `True` iff it does not raise, i.e. iff
`start_time < end_time`. -/
def BusySlot.clean_ok (b : BusySlot) : Bool :=
  decide (b.start_time < b.end_time)

/-- `parse_busy_slots_from_json` (utils.py lines 290-324): keep the
entries that have both a start and an end, as instant pairs (the
fixed-offset timezone conversion is the identity on the minute axis). -/
def parse_busy_slots_from_json (json : List (Option Nat × Option Nat)) : List (Nat × Nat) :=
  json.foldr
    (fun sd acc =>
      match sd with
      | (some s, some e) => (s, e) :: acc
      | _ => acc)
    []

/-- The participant update in `save_busy_slots`: clear the busy slots of
participant `i`, store the parsed ones, and mark the participant as
responded. -/
def updateParticipant (ps : List Participant) (i : Nat) (busy : List BusySlot) :
    List Participant :=
  ps.mapIdx fun j p =>
    if j = i then { p with busy_slots := busy, has_responded := true } else p

/-- `save_busy_slots` (views.py lines 570-616): replace participant
`i`'s busy slots with the parsed ones (created by `objects.create`,
which does not run `BusySlot.clean`), mark the participant responded,
then `generate_suggested_slots(..., force_recalculate=True)` — with no
check of the meeting's status. -/
def save_busy_slots (c : MeetingConfig) (m : MeetingState) (i : Nat)
    (json : List (Option Nat × Option Nat)) : MeetingState :=
  let busy := (parse_busy_slots_from_json json).map fun se => BusySlot.mk se.1 se.2
  let parts := updateParticipant m.participants i busy
  { m with
    participants := parts,
    slots := generate_suggested_slots c parts m.slots true }

/-- A two-slot weekday configuration used for the concrete locked-state
runs: duration 60, step 60, one day, work hours 09:00–11:00. -/
def cfgLock : MeetingConfig := ⟨60, 60, 0, 0, 540, 660, false⟩

/-- A responded participant with no busy intervals. -/
def pResp : Participant := ⟨true, []⟩

/-- The meeting state after a first clean recompute of `cfgLock` with
the single responded participant `pResp`. -/
def mActive : MeetingState :=
  ⟨MeetingStatus.active, [pResp], generate_suggested_slots cfgLock [pResp] [] true⟩

/-- `mActive` after locking the 09:00–10:00 slot. -/
def mLocked : MeetingState := lock_slot mActive (540, 600)

/-- A configuration whose date range is inverted (end before start), so
its lattice is empty: the stand-in for "the configuration changed and
the old slots are no longer in the lattice". -/
def cfgInverted : MeetingConfig := ⟨60, 30, 5, 3, 540, 1020, false⟩

end Meetings

namespace Meetings

/-! ### Helper lemmas -/

/-- Length of the inner slot loop, given enough fuel and a positive
step: the closed-form count. -/
theorem slotLoop_length (step dur we : Nat) (hstep : 0 < step) :
    ∀ fuel t, we < t + fuel →
      (slotLoop step dur we fuel t).length =
        if t + dur ≤ we then (we - dur - t) / step + 1 else 0 := by
  intro fuel
  induction fuel with
  | zero =>
    intro t ht
    rw [slotLoop, if_neg (by omega)]
    rfl
  | succ n ih =>
    intro t ht
    rw [slotLoop]
    by_cases h : t + dur ≤ we
    · rw [if_pos h, if_pos h, List.length_cons, ih (t + step) (by omega)]
      by_cases h2 : t + step + dur ≤ we
      · rw [if_pos h2]
        have hle : step ≤ we - dur - t := by omega
        have hdiv := Nat.div_eq_sub_div hstep hle
        have heq : we - dur - t - step = we - dur - (t + step) := by omega
        rw [heq] at hdiv
        omega
      · rw [if_neg h2]
        have : we - dur - t < step := by omega
        rw [Nat.div_eq_of_lt this]
    · rw [if_neg h, if_neg h]
      rfl

/-- Every included day contributes the same closed-form number of
slots. -/
theorem daySlots_length (c : MeetingConfig) (hstep : 0 < c.step_size_minutes) (d : Nat) :
    (daySlots c d).length = perDaySlotCount c := by
  unfold daySlots perDaySlotCount instant
  rw [slotLoop_length _ _ _ hstep _ _ (by omega)]
  by_cases h : c.work_hours_start + c.duration_minutes ≤ c.work_hours_end
  · rw [if_pos (by omega), if_pos h]
    have harg : d * 1440 + c.work_hours_end - c.duration_minutes -
        (d * 1440 + c.work_hours_start) =
        c.work_hours_end - c.work_hours_start - c.duration_minutes := by omega
    rw [harg]
  · rw [if_neg (by omega), if_neg h]

/-- The lattice size is the number of included days times the per-day
closed form. -/
theorem generate_time_slots_length (c : MeetingConfig) (hstep : 0 < c.step_size_minutes) :
    (generate_time_slots c).length = (includedDays c).length * perDaySlotCount c := by
  unfold generate_time_slots includedDays
  generalize dayRange c.date_range_start c.date_range_end = l
  induction l with
  | nil => simp
  | cons d rest ih =>
    rw [List.flatMap_cons, List.filter_cons, List.length_append, ih]
    by_cases h : (c.work_days_only && decide (5 ≤ weekday d)) = true
    · simp [h]
    · have hb : (c.work_days_only && decide (5 ≤ weekday d)) = false := Bool.of_not_eq_true h
      rw [if_neg h]
      simp only [hb, Bool.not_false, if_true, List.length_cons,
        daySlots_length c hstep d, Nat.succ_mul]
      omega

/-- A duration that does not fit the work-hour window produces an empty
lattice. -/
theorem generate_time_slots_window_empty (c : MeetingConfig)
    (h : c.work_hours_end < c.work_hours_start + c.duration_minutes) :
    generate_time_slots c = [] := by
  unfold generate_time_slots
  apply List.flatMap_eq_nil_iff.mpr
  intro d hd
  by_cases hskip : (c.work_days_only && decide (5 ≤ weekday d)) = true
  · rw [if_pos hskip]
  · rw [if_neg hskip]
    unfold daySlots instant slotLoop
    rw [if_neg (by omega)]

/-- An inverted date range produces an empty lattice. -/
theorem generate_time_slots_range_empty (c : MeetingConfig)
    (h : c.date_range_end < c.date_range_start) :
    generate_time_slots c = [] := by
  unfold generate_time_slots dayRange
  have hz : c.date_range_end + 1 - c.date_range_start = 0 := by omega
  rw [hz]
  rfl

/-! ### C1: the overlap tester -/

/-- C1.  `is_participant_available` returns `true` iff no busy interval
of the participant satisfies `busy.start < ce ∧ busy.end > cs`; in
particular a busy interval that merely touches a boundary
(`busy.end = cs` or `busy.start = ce`) never makes the participant
unavailable, for arbitrarily many, possibly overlapping, busy
intervals. -/
theorem is_participant_available_iff (busy : List BusySlot) (cs ce : Nat) :
    (is_participant_available busy cs ce = true ↔
      ∀ b ∈ busy, ¬(b.start_time < ce ∧ b.end_time > cs)) ∧
    ((∀ b ∈ busy, b.end_time = cs ∨ b.start_time = ce) →
      is_participant_available busy cs ce = true) := by
  refine ⟨?_, ?_⟩
  · simp only [is_participant_available, Bool.not_eq_true', List.any_eq_false,
      Bool.and_eq_true, decide_eq_true_eq, not_and, gt_iff_lt, not_lt]
  · intro htouch
    simp only [is_participant_available, Bool.not_eq_true', List.any_eq_false,
      Bool.and_eq_true, decide_eq_true_eq, not_and, gt_iff_lt, not_lt]
    intro b hb hlt
    rcases htouch b hb with he | hs
    · omega
    · omega

/-- Witness for C1: a concrete run — busy `08:00–09:00` (480–540)
against candidate `09:00–10:00` (540–600) is available (Scenario C),
and the iff holds there. -/
theorem is_participant_available_iff_witness :
    (is_participant_available [⟨480, 540⟩] 540 600 = true ↔
      ∀ b ∈ [(⟨480, 540⟩ : BusySlot)], ¬(b.start_time < 600 ∧ b.end_time > 540)) ∧
    ((∀ b ∈ [(⟨480, 540⟩ : BusySlot)], b.end_time = 540 ∨ b.start_time = 600) →
      is_participant_available [⟨480, 540⟩] 540 600 = true) :=
  is_participant_available_iff [⟨480, 540⟩] 540 600

/-! ### C2: the lattice size -/

/-- C2.  For every configuration with a positive step, the lattice has
exactly the closed-form `floor((work_minutes - duration)/step) + 1`
slots per included day (0 when the duration does not fit), summed over
included days; the lattice is empty when the duration exceeds the
work-hour window or the date range is inverted; and Scenario A
(duration 60, step 30, one day, work hours 09:00–17:00) yields exactly
15 slots, the first being 09:00–10:00. -/
theorem generate_time_slots_count (c : MeetingConfig) (hstep : 0 < c.step_size_minutes) :
    (generate_time_slots c).length = (includedDays c).length * perDaySlotCount c ∧
    (c.work_hours_end < c.work_hours_start + c.duration_minutes →
      generate_time_slots c = []) ∧
    (c.date_range_end < c.date_range_start → generate_time_slots c = []) ∧
    (generate_time_slots scenarioA).length = 15 ∧
    (generate_time_slots scenarioA).head? = some (540, 600) :=
  ⟨generate_time_slots_length c hstep,
    fun h => generate_time_slots_window_empty c h,
    fun h => generate_time_slots_range_empty c h,
    by decide, by decide⟩

/-- Witness for C2: instantiated at the Scenario A configuration, whose
step is positive. -/
theorem generate_time_slots_count_witness :
    0 < scenarioA.step_size_minutes ∧ (generate_time_slots scenarioA).length = 15 :=
  ⟨by decide, (generate_time_slots_count scenarioA (by decide)).2.2.2.1⟩

/-! ### C3: the ranker -/

/-- C3, corrected.  `get_top_suggestions` returns exactly the slots
whose rounded `availability_percentage` is at least the threshold
(inclusive), sorted by available count descending with start time
ascending as tie-break, truncated to the first `limit` entries: the
output is literally the `limit`-prefix of a sorted permutation of the
qualifying slots, and every returned slot ranks at least as high as
every qualifying slot left out; a limit of 0 yields an empty result,
and a limit at least the number of qualifying slots yields all of
them. -/
theorem get_top_suggestions_spec (slots : List SuggestedSlot) (limit : Nat) (T : ℚ) :
    (∀ s ∈ get_top_suggestions slots limit T, T ≤ availability_percentage s ∧ s ∈ slots) ∧
    (get_top_suggestions slots limit T).Sorted slotOrder ∧
    (get_top_suggestions slots limit T).length =
      min limit ((slots.filter fun s => decide (T ≤ availability_percentage s)).length) ∧
    (limit = 0 → get_top_suggestions slots limit T = []) ∧
    ((slots.filter fun s => decide (T ≤ availability_percentage s)).length ≤ limit →
      (get_top_suggestions slots limit T).Perm
        (slots.filter fun s => decide (T ≤ availability_percentage s))) ∧
    (∃ full : List SuggestedSlot,
      full.Perm (slots.filter fun s => decide (T ≤ availability_percentage s)) ∧
      full.Sorted slotOrder ∧
      get_top_suggestions slots limit T = full.take limit) ∧
    (∀ s ∈ get_top_suggestions slots limit T, ∀ t ∈ slots,
      T ≤ availability_percentage t → t ∉ get_top_suggestions slots limit T →
      slotOrder s t) := by
  have hperm := List.perm_insertionSort slotOrder slots
  have hpermf := hperm.filter fun s => decide (T ≤ availability_percentage s)
  have hsortf : ((List.insertionSort slotOrder slots).filter fun s =>
      decide (T ≤ availability_percentage s)).Sorted slotOrder :=
    (List.sorted_insertionSort slotOrder slots).filter _
  refine ⟨?_, ?_, ?_, ?_, ?_, ?_, ?_⟩
  · intro s hs
    have h1 := List.mem_of_mem_take hs
    have h2 := List.mem_filter.mp h1
    exact ⟨of_decide_eq_true h2.2, hperm.subset h2.1⟩
  · exact hsortf.sublist (List.take_sublist _ _)
  · rw [get_top_suggestions, List.length_take, hpermf.length_eq]
  · intro h
    rw [get_top_suggestions, h, List.take_zero]
  · intro h
    rw [get_top_suggestions, List.take_of_length_le (by rw [hpermf.length_eq]; exact h)]
    exact hpermf
  · exact ⟨(List.insertionSort slotOrder slots).filter fun s =>
      decide (T ≤ availability_percentage s), hpermf, hsortf, rfl⟩
  · intro s hs t ht hq htout
    have htf : t ∈ (List.insertionSort slotOrder slots).filter fun s =>
        decide (T ≤ availability_percentage s) := by
      rw [List.mem_filter]
      exact ⟨hperm.mem_iff.mpr ht, decide_eq_true hq⟩
    have hsplit := List.take_append_drop limit
      ((List.insertionSort slotOrder slots).filter fun s =>
        decide (T ≤ availability_percentage s))
    have htf2 : t ∈ (((List.insertionSort slotOrder slots).filter fun s =>
        decide (T ≤ availability_percentage s)).take limit) ++
        (((List.insertionSort slotOrder slots).filter fun s =>
          decide (T ≤ availability_percentage s)).drop limit) := by
      rw [hsplit]
      exact htf
    have htd := (List.mem_append.mp htf2).resolve_left htout
    have hs2 : ((((List.insertionSort slotOrder slots).filter fun s =>
        decide (T ≤ availability_percentage s)).take limit) ++
        (((List.insertionSort slotOrder slots).filter fun s =>
          decide (T ≤ availability_percentage s)).drop limit)).Sorted slotOrder := by
      rw [hsplit]
      exact hsortf
    exact (List.pairwise_append.mp hs2).2.2 s hs t htd

/-- Witness for C3: with limit 0 the ranker returns nothing, at a
concrete slot set. -/
theorem get_top_suggestions_spec_witness :
    get_top_suggestions [⟨0, 60, 1, 2, false⟩] 0 50 = [] :=
  (get_top_suggestions_spec [⟨0, 60, 1, 2, false⟩] 0 50).2.2.2.1 rfl

/-- Counterexample for C3 as originally stated: the code filters on the
percentage rounded to one decimal, not on the exact ratio.  A slot with
2498 of 5000 available has exact percentage 49.96 < 50, yet
`get_top_suggestions` keeps it at threshold 50 because its
`availability_percentage` rounds to 50.0. -/
theorem get_top_suggestions_exact_threshold_counterexample :
    (2498 : ℚ) / 5000 * 100 < 50 ∧
    get_top_suggestions [⟨0, 60, 2498, 5000, false⟩] 10 50 =
      [⟨0, 60, 2498, 5000, false⟩] := by
  have hp : pctTenths ⟨0, 60, 2498, 5000, false⟩ = 500 := by decide
  have h : availability_percentage ⟨0, 60, 2498, 5000, false⟩ = 50 := by
    rw [availability_percentage, hp]
    norm_num
  exact ⟨by norm_num, by simp [get_top_suggestions, List.insertionSort, h]⟩

/-! ### C7: aggregation invariants -/

/-- C7.  `calculate_slot_availability` returns
`available_count ≤ total_participants`, where `total_participants` is
the number of responded participants; when it is 0 the available count
is 0, and `availability_percentage` of a slot with no participants is
defined as 0 rather than raising. -/
theorem calculate_slot_availability_invariant (parts : List Participant) (cs ce : Nat) :
    (calculate_slot_availability parts cs ce).1 ≤
      (calculate_slot_availability parts cs ce).2.1 ∧
    (calculate_slot_availability parts cs ce).2.1 =
      (parts.filter (·.has_responded)).length ∧
    ((calculate_slot_availability parts cs ce).2.1 = 0 →
      (calculate_slot_availability parts cs ce).1 = 0) ∧
    (∀ s : SuggestedSlot, s.total_participants = 0 → availability_percentage s = 0) := by
  have hper : ∀ s : SuggestedSlot, s.total_participants = 0 →
      availability_percentage s = 0 := by
    intro s hs
    simp [availability_percentage, pctTenths, hs]
  simp only [calculate_slot_availability]
  by_cases h : (parts.filter (·.has_responded)).length = 0
  · rw [if_pos h]
    exact ⟨Nat.le_refl 0, h.symm, fun _ => rfl, hper⟩
  · rw [if_neg h]
    exact ⟨List.length_filter_le _ _, rfl, fun hz => absurd hz h, hper⟩

/-- Witness for C7: a slot with `total_participants = 0` has percentage
0, through the invariant theorem at a concrete input. -/
theorem calculate_slot_availability_invariant_witness :
    availability_percentage ⟨0, 60, 0, 0, false⟩ = 0 :=
  (calculate_slot_availability_invariant [] 0 60).2.2.2 ⟨0, 60, 0, 0, false⟩ rfl

/-! ### C8: the heatmap intensity level -/

/-- C8.  `heatmap_level` is the 0–5 step function of
`availability_percentage`: 0 at exactly 0%, 1 on (0, 20), 2 on
[20, 40), 3 on [40, 60), 4 on [60, 80), and 5 on [80, 100]. -/
theorem heatmap_level_step_function (s : SuggestedSlot) :
    (availability_percentage s = 0 → heatmap_level s = 0) ∧
    (0 < availability_percentage s → availability_percentage s < 20 → heatmap_level s = 1) ∧
    (20 ≤ availability_percentage s → availability_percentage s < 40 → heatmap_level s = 2) ∧
    (40 ≤ availability_percentage s → availability_percentage s < 60 → heatmap_level s = 3) ∧
    (60 ≤ availability_percentage s → availability_percentage s < 80 → heatmap_level s = 4) ∧
    (80 ≤ availability_percentage s → availability_percentage s ≤ 100 →
      heatmap_level s = 5) := by
  unfold heatmap_level
  refine ⟨?_, ?_, ?_, ?_, ?_, ?_⟩ <;> intro h1 <;>
    first
      | (intro h2; split_ifs <;> first | rfl | (exfalso; linarith))
      | (split_ifs <;> first | rfl | (exfalso; linarith))

/-- Witness for C8: a slot at exactly 80% gets level 5, through the
step-function theorem at a concrete input. -/
theorem heatmap_level_step_function_witness :
    heatmap_level ⟨0, 60, 4, 5, false⟩ = 5 :=
  (heatmap_level_step_function ⟨0, 60, 4, 5, false⟩).2.2.2.2.2
    (by rw [availability_percentage, show pctTenths ⟨0, 60, 4, 5, false⟩ = 800 from by decide]
        norm_num)
    (by rw [availability_percentage, show pctTenths ⟨0, 60, 4, 5, false⟩ = 800 from by decide]
        norm_num)

/-! ### C10: one-decimal rounding at classification boundaries -/

/-- C10.  Both the ranker's threshold filter and the heatmap level are
computed from `availability_percentage`, the exact ratio rounded to one
decimal: 3998 available of 5000 is exactly 79.96%, strictly below 80,
yet its `availability_percentage` is 80.0, its heatmap level is 5, and
`get_top_suggestions` keeps it at threshold 80. -/
theorem rounding_boundary_classification :
    availability_percentage ⟨0, 60, 3998, 5000, false⟩ = 80 ∧
    (3998 : ℚ) / 5000 * 100 < 80 ∧
    heatmap_level ⟨0, 60, 3998, 5000, false⟩ = 5 ∧
    get_top_suggestions [⟨0, 60, 3998, 5000, false⟩] 10 80 =
      [⟨0, 60, 3998, 5000, false⟩] := by
  have hp : pctTenths ⟨0, 60, 3998, 5000, false⟩ = 800 := by decide
  have h : availability_percentage ⟨0, 60, 3998, 5000, false⟩ = 80 := by
    rw [availability_percentage, hp]
    norm_num
  refine ⟨h, by norm_num, ?_, ?_⟩
  · simp [heatmap_level, h]
  · simp [get_top_suggestions, List.insertionSort, h]

/-! ### Lattice ordering and the upsert fold -/

/-- Every pair emitted by the inner loop starts at or after `t`, ends
within the work window, and spans exactly the duration. -/
theorem slotLoop_start_bounds (step dur we : Nat) :
    ∀ fuel t, ∀ p ∈ slotLoop step dur we fuel t,
      t ≤ p.1 ∧ p.1 + dur ≤ we ∧ p.2 = p.1 + dur := by
  intro fuel
  induction fuel with
  | zero =>
    intro t p hp
    simp [slotLoop] at hp
  | succ n ih =>
    intro t p hp
    rw [slotLoop] at hp
    by_cases h : t + dur ≤ we
    · rw [if_pos h] at hp
      rcases List.mem_cons.mp hp with heq | hmem
      · subst heq
        exact ⟨Nat.le_refl t, h, rfl⟩
      · have hb := ih (t + step) p hmem
        exact ⟨by omega, hb.2.1, hb.2.2⟩
    · rw [if_neg h] at hp
      simp at hp

/-- With a positive step the inner loop's start times strictly
increase. -/
theorem slotLoop_pairwise (step dur we : Nat) (hstep : 0 < step) :
    ∀ fuel t, (slotLoop step dur we fuel t).Pairwise fun p q => p.1 < q.1 := by
  intro fuel
  induction fuel with
  | zero =>
    intro t
    simp [slotLoop]
  | succ n ih =>
    intro t
    rw [slotLoop]
    by_cases h : t + dur ≤ we
    · rw [if_pos h]
      refine List.Pairwise.cons ?_ (ih (t + step))
      intro q hq
      have hb := slotLoop_start_bounds step dur we n (t + step) q hq
      show t < q.1
      omega
    · rw [if_neg h]
      exact List.Pairwise.nil

/-- The day ordinals of the date range strictly increase. -/
theorem dayRange_pairwise (s e : Nat) : (dayRange s e).Pairwise (· < ·) := by
  unfold dayRange
  rw [List.pairwise_map]
  exact (List.pairwise_lt_range (e + 1 - s)).imp fun h => by omega

/-- With a positive step, a positive duration, and a work-hour end
within the day, the lattice's start instants strictly increase — in
particular the `(start, end)` keys are pairwise distinct. -/
theorem generate_time_slots_pairwise (c : MeetingConfig) (hstep : 0 < c.step_size_minutes)
    (hdur : 0 < c.duration_minutes) (hwe : c.work_hours_end ≤ 1440) :
    (generate_time_slots c).Pairwise fun p q => p.1 < q.1 := by
  unfold generate_time_slots
  rw [List.pairwise_flatMap]
  constructor
  · intro d hd
    by_cases h : (c.work_days_only && decide (5 ≤ weekday d)) = true
    · rw [if_pos h]
      exact List.Pairwise.nil
    · rw [if_neg h]
      exact slotLoop_pairwise _ _ _ hstep _ _
  · refine (dayRange_pairwise c.date_range_start c.date_range_end).imp_of_mem ?_
    intro d d' hd hd' hlt x hx y hy
    have hx' : x ∈ daySlots c d := by
      by_cases h : (c.work_days_only && decide (5 ≤ weekday d)) = true
      · rw [if_pos h] at hx
        simp at hx
      · rwa [if_neg h] at hx
    have hy' : y ∈ daySlots c d' := by
      by_cases h : (c.work_days_only && decide (5 ≤ weekday d')) = true
      · rw [if_pos h] at hy
        simp at hy
      · rwa [if_neg h] at hy
    have hbx := slotLoop_start_bounds _ _ _ _ _ x hx'
    have hby := slotLoop_start_bounds _ _ _ _ _ y hy'
    unfold instant at hbx hby
    have h1 : x.1 + c.duration_minutes ≤ d * 1440 + c.work_hours_end := hbx.2.1
    have h2 : d' * 1440 + c.work_hours_start ≤ y.1 := hby.1
    have h3 : d + 1 ≤ d' := hlt
    nlinarith [hbx.1, hby.1]

/-- `upsertRow` never changes a row's key. -/
theorem upsertRow_key (st en a t : Nat) (s : SuggestedSlot) :
    (upsertRow st en a t s).start_time = s.start_time ∧
    (upsertRow st en a t s).end_time = s.end_time := by
  unfold upsertRow
  split_ifs
  · exact ⟨rfl, rfl⟩
  · exact ⟨rfl, rfl⟩

/-- On the matching key, `upsertRow` writes the given values. -/
theorem upsertRow_match (st en a t : Nat) (s : SuggestedSlot)
    (h : s.start_time = st ∧ s.end_time = en) :
    (upsertRow st en a t s).available_count = a ∧
    (upsertRow st en a t s).total_participants = t := by
  unfold upsertRow
  rw [if_pos h]
  exact ⟨rfl, rfl⟩

/-- On any other key, `upsertRow` is the identity. -/
theorem upsertRow_nomatch (st en a t : Nat) (s : SuggestedSlot)
    (h : ¬(s.start_time = st ∧ s.end_time = en)) :
    upsertRow st en a t s = s := by
  unfold upsertRow
  rw [if_neg h]

/-- Folding the upsert over lattice keys with strictly increasing
starts, from an accumulator containing none of those starts, appends
exactly the freshly computed rows. -/
theorem foldl_applySlot_fresh (parts : List Participant) :
    ∀ (L : List (Nat × Nat)) (acc : List SuggestedSlot),
      L.Pairwise (fun p q => p.1 < q.1) →
      (∀ s ∈ acc, ∀ p ∈ L, s.start_time ≠ p.1) →
      L.foldl (applySlot parts) acc = acc ++ L.map (freshSlot parts) := by
  intro L
  induction L with
  | nil =>
    intro acc _ _
    simp
  | cons p rest ih =>
    intro acc hpw hacc
    rw [List.foldl_cons]
    have hnew : applySlot parts acc p = acc ++ [freshSlot parts p] := by
      unfold applySlot update_or_create
      rw [if_neg ?_, freshSlot]
      intro hany
      rcases List.any_eq_true.mp hany with ⟨s, hs, hmatch⟩
      rw [Bool.and_eq_true, decide_eq_true_eq, decide_eq_true_eq] at hmatch
      exact hacc s hs p (List.mem_cons_self p rest) hmatch.1
    rw [hnew, ih (acc ++ [freshSlot parts p]) (List.pairwise_cons.mp hpw).2 ?_]
    · rw [List.map_cons, List.append_assoc]
      rfl
    · intro s hs q hq
      rcases List.mem_append.mp hs with h1 | h2
      · exact hacc s h1 q (List.mem_cons_of_mem _ hq)
      · have hsq : s = freshSlot parts p := by simpa using h2
        subst hsq
        have hlt := (List.pairwise_cons.mp hpw).1 q hq
        show p.1 ≠ q.1
        omega

/-- A row whose key is outside the lattice is untouched by the upsert
fold. -/
theorem foldl_applySlot_mem_preserved (parts : List Participant) :
    ∀ (L : List (Nat × Nat)) (acc : List SuggestedSlot) (s : SuggestedSlot),
      s ∈ acc →
      (∀ p ∈ L, s.start_time ≠ p.1 ∨ s.end_time ≠ p.2) →
      s ∈ L.foldl (applySlot parts) acc := by
  intro L
  induction L with
  | nil =>
    intro acc s hs _
    simpa using hs
  | cons p rest ih =>
    intro acc s hs hkey
    rw [List.foldl_cons]
    refine ih _ s ?_ fun q hq => hkey q (List.mem_cons_of_mem _ hq)
    have hnomatch : ¬(s.start_time = p.1 ∧ s.end_time = p.2) := by
      intro hcontra
      rcases hkey p (List.mem_cons_self p rest) with h1 | h1
      · exact h1 hcontra.1
      · exact h1 hcontra.2
    unfold applySlot update_or_create
    by_cases hany : (acc.any fun t =>
        decide (t.start_time = p.1) && decide (t.end_time = p.2)) = true
    · rw [if_pos hany]
      exact List.mem_map.mpr ⟨s, hs,
        upsertRow_nomatch p.1 p.2 _ _ s hnomatch⟩
    · rw [if_neg hany]
      exact List.mem_append_left _ hs

/-! ### C5: wholesale replacement -/

/-- C5, corrected.  With `force_recalculate = True` the persisted
`SuggestedSlot` set after `generate_suggested_slots` is exactly the
freshly generated lattice with freshly computed counts (the old rows
are deleted first); with `force_recalculate = False` a row whose
`(start, end)` key is not in the new lattice survives the call. -/
theorem generate_suggested_slots_replaces (c : MeetingConfig) (parts : List Participant)
    (db : List SuggestedSlot) (hstep : 0 < c.step_size_minutes)
    (hdur : 0 < c.duration_minutes) (hwe : c.work_hours_end ≤ 1440) :
    generate_suggested_slots c parts db true =
      (generate_time_slots c).map (freshSlot parts) ∧
    (∀ s ∈ db, (∀ p ∈ generate_time_slots c, s.start_time ≠ p.1 ∨ s.end_time ≠ p.2) →
      s ∈ generate_suggested_slots c parts db false) := by
  constructor
  · show (generate_time_slots c).foldl (applySlot parts) [] = _
    rw [foldl_applySlot_fresh parts (generate_time_slots c) []
      (generate_time_slots_pairwise c hstep hdur hwe) (by simp)]
    rfl
  · intro s hs hkey
    show s ∈ (generate_time_slots c).foldl (applySlot parts) db
    exact foldl_applySlot_mem_preserved parts (generate_time_slots c) db s hs hkey

/-- Witness for C5: the two-slot `cfgLock` configuration recomputed
from a dirty database equals the fresh lattice rows. -/
theorem generate_suggested_slots_replaces_witness :
    generate_suggested_slots cfgLock [pResp] [⟨0, 60, 3, 5, false⟩] true =
      (generate_time_slots cfgLock).map (freshSlot [pResp]) :=
  (generate_suggested_slots_replaces cfgLock [pResp] [⟨0, 60, 3, 5, false⟩]
    (by decide) (by decide) (by decide)).1

/-- Counterexample for C5 as originally stated: with
`force_recalculate = False` the code only upserts, so a stale row from
an earlier configuration survives.  Here the configuration's date range
is inverted, the fresh lattice is empty, yet the old row is still
persisted after the call. -/
theorem generate_suggested_slots_stale_counterexample :
    generate_time_slots cfgInverted = [] ∧
    generate_suggested_slots cfgInverted [] [⟨0, 60, 3, 5, false⟩] false =
      [⟨0, 60, 3, 5, false⟩] ∧
    generate_suggested_slots cfgInverted [] [⟨0, 60, 3, 5, false⟩] false ≠
      (generate_time_slots cfgInverted).map (freshSlot []) := by
  refine ⟨by decide, by decide, ?_⟩
  decide

/-! ### C6: idempotence -/

/-- An upsert of values a row already carries is the identity on that
row. -/
theorem upsertRow_id (st en a t : Nat) (s : SuggestedSlot)
    (hv : s.available_count = a ∧ s.total_participants = t) :
    upsertRow st en a t s = s := by
  unfold upsertRow
  split_ifs
  · cases s
    simp only at hv
    rw [hv.1, hv.2]
  · rfl

/-- Inside the upsert fold, once a key's rows all carry the freshly
computed values, later upserts keep every row with that key at those
values. -/
theorem foldl_applySlot_keeps_fresh (parts : List Participant) (k : Nat × Nat) :
    ∀ (L : List (Nat × Nat)) (acc : List SuggestedSlot),
      (∀ s ∈ acc, s.start_time = k.1 ∧ s.end_time = k.2 →
        s.available_count = (calculate_slot_availability parts k.1 k.2).1 ∧
        s.total_participants = (calculate_slot_availability parts k.1 k.2).2.1) →
      ∀ s ∈ L.foldl (applySlot parts) acc,
        s.start_time = k.1 ∧ s.end_time = k.2 →
        s.available_count = (calculate_slot_availability parts k.1 k.2).1 ∧
        s.total_participants = (calculate_slot_availability parts k.1 k.2).2.1 := by
  intro L
  induction L with
  | nil =>
    intro acc hacc s hs
    exact hacc s (by simpa using hs)
  | cons p rest ih =>
    intro acc hacc s hs
    rw [List.foldl_cons] at hs
    refine ih (applySlot parts acc p) ?_ s hs
    intro t ht htk
    revert ht
    unfold applySlot update_or_create
    by_cases hany : (acc.any fun u =>
        decide (u.start_time = p.1) && decide (u.end_time = p.2)) = true
    · rw [if_pos hany]
      intro ht
      rcases List.mem_map.mp ht with ⟨u, hu, hut⟩
      have hkeyeq := upsertRow_key p.1 p.2
        (calculate_slot_availability parts p.1 p.2).1
        (calculate_slot_availability parts p.1 p.2).2.1 u
      by_cases hmatch : u.start_time = p.1 ∧ u.end_time = p.2
      · have hpk1 : p.1 = k.1 := by
          rw [← hmatch.1, ← hkeyeq.1, hut]
          exact htk.1
        have hpk2 : p.2 = k.2 := by
          rw [← hmatch.2, ← hkeyeq.2, hut]
          exact htk.2
        have hv := upsertRow_match p.1 p.2
          (calculate_slot_availability parts p.1 p.2).1
          (calculate_slot_availability parts p.1 p.2).2.1 u hmatch
        rw [hut] at hv
        rw [← hpk1, ← hpk2]
        exact hv
      · rw [upsertRow_nomatch p.1 p.2
          (calculate_slot_availability parts p.1 p.2).1
          (calculate_slot_availability parts p.1 p.2).2.1 u hmatch] at hut
        subst hut
        exact hacc u hu htk
    · rw [if_neg hany]
      intro ht
      rcases List.mem_append.mp ht with h1 | h2
      · exact hacc t h1 htk
      · have ht2 : t = ⟨p.1, p.2,
            (calculate_slot_availability parts p.1 p.2).1,
            (calculate_slot_availability parts p.1 p.2).2.1, false⟩ := by
          simpa using h2
        subst ht2
        have hpk1 : p.1 = k.1 := htk.1
        have hpk2 : p.2 = k.2 := htk.2
        rw [← hpk1, ← hpk2]
        exact ⟨rfl, rfl⟩

/-- After processing key `p`, every row with key `p` carries the
freshly computed values. -/
theorem applySlot_key_fresh (parts : List Participant) (acc : List SuggestedSlot)
    (p : Nat × Nat) :
    ∀ s ∈ applySlot parts acc p, s.start_time = p.1 ∧ s.end_time = p.2 →
      s.available_count = (calculate_slot_availability parts p.1 p.2).1 ∧
      s.total_participants = (calculate_slot_availability parts p.1 p.2).2.1 := by
  intro s hs hsk
  revert hs
  unfold applySlot update_or_create
  by_cases hany : (acc.any fun u =>
      decide (u.start_time = p.1) && decide (u.end_time = p.2)) = true
  · rw [if_pos hany]
    intro hs
    rcases List.mem_map.mp hs with ⟨u, hu, hut⟩
    by_cases hmatch : u.start_time = p.1 ∧ u.end_time = p.2
    · have hv := upsertRow_match p.1 p.2
        (calculate_slot_availability parts p.1 p.2).1
        (calculate_slot_availability parts p.1 p.2).2.1 u hmatch
      rw [hut] at hv
      exact hv
    · rw [upsertRow_nomatch p.1 p.2
        (calculate_slot_availability parts p.1 p.2).1
        (calculate_slot_availability parts p.1 p.2).2.1 u hmatch] at hut
      subst hut
      exact absurd hsk hmatch
  · rw [if_neg hany]
    intro hs
    rcases List.mem_append.mp hs with h1 | h2
    · exfalso
      apply hany
      refine List.any_eq_true.mpr ⟨s, h1, ?_⟩
      rw [Bool.and_eq_true, decide_eq_true_eq, decide_eq_true_eq]
      exact hsk
    · have hs2 : s = ⟨p.1, p.2,
          (calculate_slot_availability parts p.1 p.2).1,
          (calculate_slot_availability parts p.1 p.2).2.1, false⟩ := by
        simpa using h2
      subst hs2
      exact ⟨rfl, rfl⟩

/-- The upsert never removes a key: a row with key `k` in the
accumulator guarantees one in the fold's result. -/
theorem foldl_applySlot_presence_preserved (parts : List Participant) :
    ∀ (L : List (Nat × Nat)) (acc : List SuggestedSlot) (k : Nat × Nat),
      (∃ s ∈ acc, s.start_time = k.1 ∧ s.end_time = k.2) →
      ∃ s ∈ L.foldl (applySlot parts) acc, s.start_time = k.1 ∧ s.end_time = k.2 := by
  intro L
  induction L with
  | nil =>
    intro acc k h
    simpa using h
  | cons p rest ih =>
    intro acc k h
    rw [List.foldl_cons]
    refine ih (applySlot parts acc p) k ?_
    rcases h with ⟨s, hs, hsk⟩
    unfold applySlot update_or_create
    by_cases hany : (acc.any fun u =>
        decide (u.start_time = p.1) && decide (u.end_time = p.2)) = true
    · rw [if_pos hany]
      refine ⟨upsertRow p.1 p.2
          (calculate_slot_availability parts p.1 p.2).1
          (calculate_slot_availability parts p.1 p.2).2.1 s,
        List.mem_map_of_mem _ hs, ?_⟩
      have hk := upsertRow_key p.1 p.2
        (calculate_slot_availability parts p.1 p.2).1
        (calculate_slot_availability parts p.1 p.2).2.1 s
      rw [hk.1, hk.2]
      exact hsk
    · rw [if_neg hany]
      exact ⟨s, List.mem_append_left _ hs, hsk⟩

/-- Every lattice key is present in the fold's result. -/
theorem foldl_applySlot_key_present (parts : List Participant) :
    ∀ (L : List (Nat × Nat)) (acc : List SuggestedSlot) (k : Nat × Nat), k ∈ L →
      ∃ s ∈ L.foldl (applySlot parts) acc, s.start_time = k.1 ∧ s.end_time = k.2 := by
  intro L
  induction L with
  | nil =>
    intro acc k h
    simp at h
  | cons p rest ih =>
    intro acc k hk
    rw [List.foldl_cons]
    rcases List.mem_cons.mp hk with heq | hmem
    · subst heq
      refine foldl_applySlot_presence_preserved parts rest (applySlot parts acc k) k ?_
      unfold applySlot update_or_create
      by_cases hany : (acc.any fun u =>
          decide (u.start_time = k.1) && decide (u.end_time = k.2)) = true
      · rw [if_pos hany]
        rcases List.any_eq_true.mp hany with ⟨u, hu, humatch⟩
        rw [Bool.and_eq_true, decide_eq_true_eq, decide_eq_true_eq] at humatch
        refine ⟨upsertRow k.1 k.2
            (calculate_slot_availability parts k.1 k.2).1
            (calculate_slot_availability parts k.1 k.2).2.1 u,
          List.mem_map_of_mem _ hu, ?_⟩
        have hkk := upsertRow_key k.1 k.2
          (calculate_slot_availability parts k.1 k.2).1
          (calculate_slot_availability parts k.1 k.2).2.1 u
        rw [hkk.1, hkk.2]
        exact humatch
      · rw [if_neg hany]
        refine ⟨⟨k.1, k.2, (calculate_slot_availability parts k.1 k.2).1,
            (calculate_slot_availability parts k.1 k.2).2.1, false⟩,
          List.mem_append_right _ ?_, rfl, rfl⟩
        exact List.mem_singleton.mpr rfl
    · exact ih (applySlot parts acc p) k hmem

/-- Every row whose key is in the lattice ends the fold with the
freshly computed values. -/
theorem foldl_applySlot_fresh_after (parts : List Participant) :
    ∀ (L : List (Nat × Nat)) (acc : List SuggestedSlot) (k : Nat × Nat), k ∈ L →
      ∀ s ∈ L.foldl (applySlot parts) acc, s.start_time = k.1 ∧ s.end_time = k.2 →
        s.available_count = (calculate_slot_availability parts k.1 k.2).1 ∧
        s.total_participants = (calculate_slot_availability parts k.1 k.2).2.1 := by
  intro L
  induction L with
  | nil =>
    intro acc k hk
    simp at hk
  | cons p rest ih =>
    intro acc k hk s hs hsk
    rw [List.foldl_cons] at hs
    rcases List.mem_cons.mp hk with heq | hmem
    · subst heq
      exact foldl_applySlot_keeps_fresh parts k rest (applySlot parts acc k)
        (applySlot_key_fresh parts acc k) s hs hsk
    · exact ih (applySlot parts acc p) k hmem s hs hsk

/-- An upsert fold over keys that are all present with fresh values is
the identity. -/
theorem foldl_applySlot_noop (parts : List Participant) :
    ∀ (L : List (Nat × Nat)) (acc : List SuggestedSlot),
      (∀ k ∈ L, (∃ s ∈ acc, s.start_time = k.1 ∧ s.end_time = k.2) ∧
        (∀ s ∈ acc, s.start_time = k.1 ∧ s.end_time = k.2 →
          s.available_count = (calculate_slot_availability parts k.1 k.2).1 ∧
          s.total_participants = (calculate_slot_availability parts k.1 k.2).2.1)) →
      L.foldl (applySlot parts) acc = acc := by
  intro L
  induction L with
  | nil =>
    intro acc _
    rfl
  | cons p rest ih =>
    intro acc h
    have hp := h p (List.mem_cons_self p rest)
    have hstep : applySlot parts acc p = acc := by
      unfold applySlot update_or_create
      have hany : (acc.any fun u =>
          decide (u.start_time = p.1) && decide (u.end_time = p.2)) = true := by
        rcases hp.1 with ⟨s, hs, hsk⟩
        refine List.any_eq_true.mpr ⟨s, hs, ?_⟩
        rw [Bool.and_eq_true, decide_eq_true_eq, decide_eq_true_eq]
        exact hsk
      rw [if_pos hany]
      have hid : ∀ s ∈ acc, upsertRow p.1 p.2
          (calculate_slot_availability parts p.1 p.2).1
          (calculate_slot_availability parts p.1 p.2).2.1 s = id s := by
        intro s hs
        by_cases hmatch : s.start_time = p.1 ∧ s.end_time = p.2
        · exact upsertRow_id _ _ _ _ s (hp.2 s hs hmatch)
        · exact upsertRow_nomatch _ _ _ _ s hmatch
      rw [List.map_congr_left hid, List.map_id]
    rw [List.foldl_cons, hstep]
    exact ih acc fun k hk => h k (List.mem_cons_of_mem _ hk)

/-- C6.  `generate_suggested_slots` is idempotent: running it a second
time with unchanged configuration, participants and busy intervals (and
the same `force_recalculate` flag) reproduces the first run's persisted
`SuggestedSlot` rows exactly. -/
theorem generate_suggested_slots_idempotent (c : MeetingConfig)
    (parts : List Participant) (db : List SuggestedSlot) (force : Bool) :
    generate_suggested_slots c parts (generate_suggested_slots c parts db force) force =
      generate_suggested_slots c parts db force := by
  cases force
  · show (generate_time_slots c).foldl (applySlot parts)
      ((generate_time_slots c).foldl (applySlot parts) db) =
      (generate_time_slots c).foldl (applySlot parts) db
    apply foldl_applySlot_noop
    intro k hk
    exact ⟨foldl_applySlot_key_present parts (generate_time_slots c) db k hk,
      fun s hs hsk => foldl_applySlot_fresh_after parts (generate_time_slots c) db k hk s hs hsk⟩
  · rfl

/-! ### C4: locking and the locked-state guard -/

/-- C4 evaluated on the code: locking keeps exactly one slot, marked
locked, and the leader-view recompute on a locked meeting is indeed a
no-op; but `save_busy_slots` checks no status, so a busy-slot
submission on the locked meeting still runs the forced recompute,
which deletes the locked slot and regenerates the full lattice
unlocked.  The second recompute path is therefore not a no-op and does
not preserve the single locked slot. -/
theorem locked_recompute_divergence :
    mActive.slots.length = 2 ∧
    mLocked.status = MeetingStatus.locked ∧
    mLocked.slots.length = 1 ∧
    (∀ s ∈ mLocked.slots, s.is_locked = true) ∧
    view_request_recompute cfgLock mLocked = mLocked ∧
    (∀ s ∈ (save_busy_slots cfgLock mLocked 0 []).slots, s.is_locked = false) ∧
    (save_busy_slots cfgLock mLocked 0 []).slots ≠ mLocked.slots := by
  decide

/-! ### C9: the busy-interval invariant -/

/-- C9 evaluated on the code: `BusySlot.clean` rejects an interval with
`end_time ≤ start_time`, but `save_busy_slots` creates rows with
`objects.create`, which never runs `clean`, so the degenerate interval
600–600 is persisted for the participant. -/
theorem busy_interval_validation_bypassed :
    BusySlot.clean_ok ⟨600, 600⟩ = false ∧
    ((save_busy_slots cfgLock mActive 0 [(some 600, some 600)]).participants.map
      Participant.busy_slots) = [[⟨600, 600⟩]] ∧
    ¬((600 : Nat) < 600) := by
  decide

end Meetings
